import Mathlib

/-!
Verification development for the `waly-rs` write-ahead log (`src/lib.rs`).

The log file is a sequence of characters holding one JSON-encoded record per
line.  We embed the file content as `List Char`, a `LogEntry` record as a Lean
structure, and each public operation of `WriteAheadLog` as a pure function on
an explicit state `WalState` (file content plus the in-memory `current_id`
counter).  `serde_json::to_vec` for `LogEntry` is modelled by the canonical
serializer `serializeEntry` (the exact byte sequence serde emits for this
struct: fields in declaration order, `data` as a JSON array of numbers, no
whitespace), and `serde_json::from_str::<LogEntry>` by the parser
`parseEntry`, which accepts that canonical form and rejects other segments.
Machine integers (`u64`, bytes) are modelled as `Nat`; the claims under study
never exercise `u64` overflow.
-/

namespace Waly

/-- A log entry, from `struct LogEntry { id: u64, timestamp: u64, data: Vec<u8> }`. -/
structure LogEntry where
  id : Nat
  timestamp : Nat
  data : List Nat
deriving DecidableEq, Repr

/-- The opening-brace character of the JSON encoding. -/
def lbrace : Char := Char.ofNat 123

/-- The closing-brace character of the JSON encoding. -/
def rbrace : Char := Char.ofNat 125

/-- The double-quote character of the JSON encoding. -/
def dquote : Char := Char.ofNat 34

/-- The decimal digit character for `n < 10`. -/
def digitChar (n : Nat) : Char := Char.ofNat (48 + n)

/-- Fuel-driven decimal rendering of a natural number (most significant digit
first); `natChars` supplies sufficient fuel. -/
def natCharsAux : Nat → Nat → List Char
  | 0, _ => []
  | fuel + 1, n =>
    if n < 10 then [digitChar n]
    else natCharsAux fuel (n / 10) ++ [digitChar (n % 10)]

/-- Decimal rendering of a natural number, as serde emits `u64` values. -/
def natChars (n : Nat) : List Char := natCharsAux (n + 1) n

/-- Comma-separated decimal rendering of a byte vector, as serde emits
`Vec<u8>` inside a JSON array. -/
def natListChars : List Nat → List Char
  | [] => []
  | [n] => natChars n
  | n :: m :: rest => natChars n ++ ',' :: natListChars (m :: rest)

/-- Literal characters opening the `id` field of the encoded record. -/
def idLit : List Char := [lbrace, dquote, 'i', 'd', dquote, ':']

/-- Literal characters opening the `timestamp` field of the encoded record. -/
def tsLit : List Char :=
  [',', dquote, 't', 'i', 'm', 'e', 's', 't', 'a', 'm', 'p', dquote, ':']

/-- Literal characters opening the `data` field of the encoded record,
including the opening bracket of the array. -/
def dataLit : List Char := [',', dquote, 'd', 'a', 't', 'a', dquote, ':', '[']

/-- Canonical serialization of a `LogEntry`: the byte sequence
`serde_json::to_vec` produces for this struct. -/
def serializeEntry (e : LogEntry) : List Char :=
  idLit ++ natChars e.id ++ tsLit ++ natChars e.timestamp ++ dataLit ++
    natListChars e.data ++ [']', rbrace]

/-- Numeric value of a decimal digit character. -/
def digitVal (c : Char) : Nat := c.toNat - 48

/-- Split a character list into its longest digit-run head and the rest. -/
def takeDigits : List Char → List Char × List Char
  | [] => ([], [])
  | c :: cs =>
    if c.isDigit then (c :: (takeDigits cs).1, (takeDigits cs).2)
    else ([], c :: cs)

/-- Value of a most-significant-first digit string. -/
def digitsToNat (ds : List Char) : Nat :=
  ds.foldl (fun a c => a * 10 + digitVal c) 0

/-- Parse a nonempty decimal number from the head of the input; return the
value and the remaining characters. -/
def parseNat (cs : List Char) : Option (Nat × List Char) :=
  match takeDigits cs with
  | ([], _) => none
  | (ds, rest) => some (digitsToNat ds, rest)

/-- Strip an expected literal from the head of the input. -/
def expect : List Char → List Char → Option (List Char)
  | [], cs => some cs
  | _ :: _, [] => none
  | p :: ps, c :: cs => if c = p then expect ps cs else none

/-- Parse the nonempty tail of a JSON number array, up to and including the
closing bracket; fuel bounds the recursion by the input length. -/
def parseNatListAux : Nat → List Char → Option (List Nat × List Char)
  | 0, _ => none
  | fuel + 1, cs =>
    match parseNat cs with
    | none => none
    | some (n, rest) =>
      match rest with
      | ']' :: rest2 => some ([n], rest2)
      | ',' :: rest2 =>
        match parseNatListAux fuel rest2 with
        | none => none
        | some (ns, rest3) => some (n :: ns, rest3)
      | _ => none

/-- Parse a JSON number array body (after the opening bracket), consuming the
closing bracket. -/
def parseNatList (cs : List Char) : Option (List Nat × List Char) :=
  if cs.head? = some ']' then some ([], cs.tail)
  else parseNatListAux cs.length cs

/-- Parse one stored line as a `LogEntry`; models
`serde_json::from_str::<LogEntry>` on the canonical record encoding, returning
`none` on any malformed segment. -/
def parseEntry (cs : List Char) : Option LogEntry :=
  match expect idLit cs with
  | none => none
  | some cs1 =>
    match parseNat cs1 with
    | none => none
    | some (i, cs2) =>
      match expect tsLit cs2 with
      | none => none
      | some cs3 =>
        match parseNat cs3 with
        | none => none
        | some (t, cs4) =>
          match expect dataLit cs4 with
          | none => none
          | some cs5 =>
            match parseNatList cs5 with
            | none => none
            | some (d, cs6) =>
              if cs6 = [rbrace] then some { id := i, timestamp := t, data := d }
              else none

/-- Split a character list at every newline; always returns at least one
(possibly empty) segment, and a trailing newline yields a trailing empty
segment. -/
def splitNl : List Char → List (List Char)
  | [] => [[]]
  | c :: cs =>
    if c = '\n' then [] :: splitNl cs
    else
      match splitNl cs with
      | [] => [[c]]
      | s :: ss => (c :: s) :: ss

/-- Drop one trailing carriage return from a line, as Rust `str::lines` does. -/
def stripCR (l : List Char) : List Char :=
  if l.getLast? = some '\r' then l.dropLast else l

/-- The lines of a character sequence, with Rust `str::lines` semantics: split
at newlines, drop the final empty segment produced by a trailing newline, and
strip one trailing carriage return per line. -/
def linesOf (cs : List Char) : List (List Char) :=
  let parts := splitNl cs
  (if parts.getLast? = some ([] : List Char) then parts.dropLast else parts).map stripCR

/-- The state of a `WriteAheadLog`: the bytes of the backing file and the
in-memory `current_id` counter. -/
structure WalState where
  content : List Char
  current_id : Nat
deriving DecidableEq, Repr

/-- The records a scan of the given file content yields: split into lines,
drop empty lines, keep the segments that deserialize (`lines()`,
`filter(!is_empty)`, `filter_map(from_str(..).ok())` in the source). -/
def parsedEntries (content : List Char) : List LogEntry :=
  ((linesOf content).filter (fun l => !l.isEmpty)).filterMap parseEntry

/-- From `WriteAheadLog::get_new_id`: the id after the last parseable entry,
or `0` when no entry parses. -/
def get_new_id (content : List Char) : Nat :=
  match (parsedEntries content).getLast? with
  | some e => e.id + 1
  | none => 0

/-- From `WriteAheadLog::new`: open a store over existing file content
(empty for a fresh file), recovering the counter via `get_new_id`. -/
def openWal (content : List Char) : WalState :=
  { content := content, current_id := get_new_id content }

/-- The bytes one append writes: the serialized record followed by the
newline delimiter. -/
def chunk (e : LogEntry) : List Char := serializeEntry e ++ ['\n']

/-- From `WriteAheadLog::append`, with the wall-clock timestamp passed in as
an argument: build the entry from `current_id`, write its serialization plus
a newline at the end of the file, increment the counter, return the entry. -/
def append (s : WalState) (ts : Nat) (data : List Nat) : WalState × LogEntry :=
  let e : LogEntry := { id := s.current_id, timestamp := ts, data := data }
  ({ content := s.content ++ chunk e, current_id := s.current_id + 1 }, e)

/-- `WriteAheadLog::append` with the serializer abstracted (as
`serde_json::to_vec` returns a `Result`): when serialization fails the error
propagates before anything is written and before the counter moves. -/
def appendGen {ε : Type} (ser : LogEntry → Except ε (List Char)) (s : WalState)
    (ts : Nat) (data : List Nat) : WalState × Except ε LogEntry :=
  let e : LogEntry := { id := s.current_id, timestamp := ts, data := data }
  match ser e with
  | Except.error err => (s, Except.error err)
  | Except.ok bytes =>
    ({ content := s.content ++ bytes ++ ['\n'], current_id := s.current_id + 1 },
      Except.ok e)

/-- From `WriteAheadLog::read_all`: scan the whole file and return the
parseable records; the state (counter and bytes) is returned unchanged. -/
def read_all (s : WalState) : WalState × List LogEntry :=
  (s, parsedEntries s.content)

/-- From `WriteAheadLog::clear`: truncate the file to length zero; the
counter is untouched. -/
def clear (s : WalState) : WalState :=
  { content := [], current_id := s.current_id }

/-- Concatenation of the chunks of a record list: what `clear_id` rewrites
the file from. -/
def encodeAll : List LogEntry → List Char
  | [] => []
  | e :: rest => chunk e ++ encodeAll rest

/-- From `WriteAheadLog::clear_id`: re-read the file, keep the parseable
entries whose id differs, re-serialize them with delimiters, truncate, and
write the result; the counter is untouched. -/
def clear_id (s : WalState) (i : Nat) : WalState :=
  { content := encodeAll ((parsedEntries s.content).filter (fun e => e.id != i)),
    current_id := s.current_id }

/-- Iterate `append` over a list of (timestamp, payload) arguments, returning
the final state and the entries in call order. -/
def appendSeq (s : WalState) : List (Nat × List Nat) → WalState × List LogEntry
  | [] => (s, [])
  | (t, d) :: rest =>
    let p := append s t d
    let q := appendSeq p.1 rest
    (q.1, p.2 :: q.2)

/-- File contents that end at a record boundary: empty, or ending with the
newline delimiter.  Every file the store itself writes has this shape. -/
def Terminated (cs : List Char) : Prop :=
  cs = [] ∨ cs.getLast? = some '\n'

/-- The largest id among a list of entries (`0` for the empty list). -/
def maxId (es : List LogEntry) : Nat :=
  es.foldr (fun e m => Nat.max e.id m) 0

/-! ### Decimal rendering and parsing -/

theorem digitChar_isDigit {d : Nat} (h : d < 10) : (digitChar d).isDigit = true := by
  interval_cases d <;> decide

theorem digitVal_digitChar {d : Nat} (h : d < 10) : digitVal (digitChar d) = d := by
  interval_cases d <;> decide

theorem natCharsAux_isDigit {fuel n : Nat} (h : n < fuel) :
    ∀ c ∈ natCharsAux fuel n, c.isDigit = true := by
  induction fuel generalizing n with
  | zero => omega
  | succ fuel ih =>
    intro c hc
    rw [natCharsAux] at hc
    by_cases h10 : n < 10
    · simp only [if_pos h10, List.mem_singleton] at hc
      subst hc; exact digitChar_isDigit h10
    · simp only [if_neg h10, List.mem_append, List.mem_singleton] at hc
      rcases hc with hc | hc
      · exact ih (by omega : n / 10 < fuel) c hc
      · subst hc; exact digitChar_isDigit (Nat.mod_lt _ (by omega))

theorem natCharsAux_ne_nil {fuel n : Nat} (h : n < fuel) : natCharsAux fuel n ≠ [] := by
  cases fuel with
  | zero => omega
  | succ fuel =>
    rw [natCharsAux]
    by_cases h10 : n < 10 <;> simp [h10]

theorem digitsToNat_concat (xs : List Char) (c : Char) :
    digitsToNat (xs ++ [c]) = 10 * digitsToNat xs + digitVal c := by
  simp [digitsToNat, List.foldl_append, Nat.mul_comm]

theorem digitsToNat_natCharsAux {fuel n : Nat} (h : n < fuel) :
    digitsToNat (natCharsAux fuel n) = n := by
  induction fuel generalizing n with
  | zero => omega
  | succ fuel ih =>
    rw [natCharsAux]
    by_cases h10 : n < 10
    · simp only [if_pos h10]
      show digitsToNat ([] ++ [digitChar n]) = n
      rw [digitsToNat_concat, digitVal_digitChar h10]
      simp [digitsToNat]
    · have hdiv : n / 10 < fuel := by
        have := Nat.div_lt_self (by omega : 0 < n) (by omega : 1 < 10)
        omega
      simp only [if_neg h10]
      rw [digitsToNat_concat, ih hdiv, digitVal_digitChar (Nat.mod_lt _ (by omega))]
      omega

theorem natChars_isDigit {n : Nat} : ∀ c ∈ natChars n, c.isDigit = true :=
  natCharsAux_isDigit (Nat.lt_succ_self n)

theorem natChars_ne_nil (n : Nat) : natChars n ≠ [] :=
  natCharsAux_ne_nil (Nat.lt_succ_self n)

theorem digitsToNat_natChars (n : Nat) : digitsToNat (natChars n) = n :=
  digitsToNat_natCharsAux (Nat.lt_succ_self n)

/-- The remaining input does not begin with a digit, so a number parse stops
exactly there. -/
def NoDigitHead (cs : List Char) : Prop :=
  ∀ c, cs.head? = some c → c.isDigit = false

theorem noDigitHead_cons {c : Char} {cs : List Char} (h : c.isDigit = false) :
    NoDigitHead (c :: cs) := by
  intro x hx
  simp only [List.head?_cons, Option.some.injEq] at hx
  subst hx; exact h

theorem takeDigits_eq {ds rest : List Char} (hds : ∀ c ∈ ds, c.isDigit = true)
    (hrest : NoDigitHead rest) : takeDigits (ds ++ rest) = (ds, rest) := by
  induction ds with
  | nil =>
    simp only [List.nil_append]
    cases rest with
    | nil => rfl
    | cons c cs =>
      have : c.isDigit = false := hrest c rfl
      simp [takeDigits, this]
  | cons c cs ih =>
    have hc : c.isDigit = true := hds c (List.mem_cons_self c cs)
    have ihcs := ih (fun x hx => hds x (List.mem_cons_of_mem c hx))
    simp [takeDigits, hc, ihcs]

theorem parseNat_eq {n : Nat} {rest : List Char} (hrest : NoDigitHead rest) :
    parseNat (natChars n ++ rest) = some (n, rest) := by
  have htake : takeDigits (natChars n ++ rest) = (natChars n, rest) :=
    takeDigits_eq natChars_isDigit hrest
  obtain ⟨d, ds, hd⟩ := List.exists_cons_of_ne_nil (natChars_ne_nil n)
  rw [parseNat, htake, hd]
  simp only []
  rw [← hd, digitsToNat_natChars]

theorem expect_append (p rest : List Char) : expect p (p ++ rest) = some rest := by
  induction p with
  | nil => rfl
  | cons c cs ih => simp [expect, ih]

theorem natListChars_length_le (ds : List Nat) : ds.length ≤ (natListChars ds).length := by
  induction ds with
  | nil => simp [natListChars]
  | cons n rest ih =>
    have h1 : 1 ≤ (natChars n).length :=
      List.length_pos.mpr (natChars_ne_nil n)
    cases rest with
    | nil => simpa [natListChars] using h1
    | cons m rest2 =>
      rw [natListChars]
      simp only [List.length_append, List.length_cons] at ih ⊢
      omega

theorem parseNatListAux_eq {ds : List Nat} {fuel : Nat} {rest : List Char}
    (hne : ds ≠ []) (hfuel : ds.length ≤ fuel) :
    parseNatListAux fuel (natListChars ds ++ ']' :: rest) = some (ds, rest) := by
  induction ds generalizing fuel rest with
  | nil => exact absurd rfl hne
  | cons n ds2 ih =>
    cases fuel with
    | zero => simp at hfuel
    | succ fuel =>
      cases ds2 with
      | nil =>
        have hp : parseNat (natChars n ++ ']' :: rest) = some (n, ']' :: rest) :=
          parseNat_eq (noDigitHead_cons (by decide))
        rw [natListChars, parseNatListAux, hp]
        rfl
      | cons m ds3 =>
        have hp : parseNat (natChars n ++ ',' :: (natListChars (m :: ds3) ++ ']' :: rest)) =
            some (n, ',' :: (natListChars (m :: ds3) ++ ']' :: rest)) :=
          parseNat_eq (noDigitHead_cons (by decide))
        have hrec := @ih fuel rest (by simp)
          (by simp at hfuel ⊢; omega)
        rw [natListChars, List.append_assoc, List.cons_append, parseNatListAux, hp]
        simp only [hrec]

theorem parseNatList_cons_of_ne {d : Char} {t : List Char} (h : d ≠ ']') :
    parseNatList (d :: t) = parseNatListAux (d :: t).length (d :: t) := by
  simp [parseNatList, h]

theorem parseNatList_eq (ds : List Nat) (rest : List Char) :
    parseNatList (natListChars ds ++ ']' :: rest) = some (ds, rest) := by
  cases ds with
  | nil => rfl
  | cons n ds2 =>
    obtain ⟨d, dd, hd⟩ : ∃ d dd, natChars n = d :: dd :=
      List.exists_cons_of_ne_nil (natChars_ne_nil n)
    have hdig : d.isDigit = true := by
      have := @natChars_isDigit n d
      rw [hd] at this
      exact this (List.mem_cons_self d dd)
    have hdne : d ≠ ']' := by
      intro h; subst h; simp at hdig
    obtain ⟨t, ht⟩ : ∃ t, natListChars (n :: ds2) = d :: t := by
      cases ds2 with
      | nil => exact ⟨dd, by simp [natListChars, hd]⟩
      | cons m ds3 =>
        exact ⟨dd ++ ',' :: natListChars (m :: ds3), by simp [natListChars, hd]⟩
    have hlen : (n :: ds2).length ≤ (natListChars (n :: ds2) ++ ']' :: rest).length := by
      have := natListChars_length_le (n :: ds2)
      simp only [List.length_append]
      omega
    calc parseNatList (natListChars (n :: ds2) ++ ']' :: rest)
        = parseNatList (d :: (t ++ ']' :: rest)) := by rw [← List.cons_append, ← ht]
      _ = parseNatListAux (d :: (t ++ ']' :: rest)).length (d :: (t ++ ']' :: rest)) :=
          parseNatList_cons_of_ne hdne
      _ = parseNatListAux (natListChars (n :: ds2) ++ ']' :: rest).length
            (natListChars (n :: ds2) ++ ']' :: rest) := by rw [← List.cons_append, ← ht]
      _ = some (n :: ds2, rest) := parseNatListAux_eq (by simp) hlen

/-! ### The serializer round-trips through the parser -/

theorem parseEntry_serializeEntry (e : LogEntry) : parseEntry (serializeEntry e) = some e := by
  have hser : serializeEntry e = idLit ++ (natChars e.id ++ (tsLit ++ (natChars e.timestamp ++
      (dataLit ++ (natListChars e.data ++ (']' :: [rbrace])))))) := by
    simp [serializeEntry]
  have hts : NoDigitHead (tsLit ++ (natChars e.timestamp ++
      (dataLit ++ (natListChars e.data ++ (']' :: [rbrace]))))) := by
    intro c hc
    simp only [tsLit, List.cons_append, List.head?_cons, Option.some.injEq] at hc
    subst hc; decide
  have hdata : NoDigitHead (dataLit ++ (natListChars e.data ++ (']' :: [rbrace]))) := by
    intro c hc
    simp only [dataLit, List.cons_append, List.head?_cons, Option.some.injEq] at hc
    subst hc; decide
  rw [parseEntry, hser]
  simp only [expect_append, parseNat_eq hts, parseNat_eq hdata, parseNatList_eq,
    if_pos rfl]
  rfl

theorem serializeEntry_ne_nil (e : LogEntry) : serializeEntry e ≠ [] := by
  simp [serializeEntry, idLit]

theorem mem_natChars_ne {c : Char} {n : Nat} (h : c ∈ natChars n) :
    c ≠ '\n' ∧ c ≠ '\r' := by
  have hd := natChars_isDigit c h
  constructor <;> (intro hc; rw [hc] at hd; exact absurd hd (by decide))

theorem mem_natListChars_ne {c : Char} {ds : List Nat} (h : c ∈ natListChars ds) :
    c ≠ '\n' ∧ c ≠ '\r' := by
  induction ds with
  | nil => simp [natListChars] at h
  | cons n rest ih =>
    cases rest with
    | nil => exact mem_natChars_ne (by simpa [natListChars] using h)
    | cons m r2 =>
      rw [natListChars] at h
      rcases List.mem_append.mp h with h | h
      · exact mem_natChars_ne h
      · rcases List.mem_cons.mp h with h | h
        · subst h; exact ⟨by decide, by decide⟩
        · exact ih h

theorem mem_serializeEntry_ne {c : Char} {e : LogEntry} (h : c ∈ serializeEntry e) :
    c ≠ '\n' ∧ c ≠ '\r' := by
  rw [serializeEntry] at h
  rcases List.mem_append.mp h with h | h
  · rcases List.mem_append.mp h with h | h
    · rcases List.mem_append.mp h with h | h
      · rcases List.mem_append.mp h with h | h
        · rcases List.mem_append.mp h with h | h
          · rcases List.mem_append.mp h with h | h
            · constructor <;> (rintro rfl; exact absurd h (by decide))
            · exact mem_natChars_ne h
          · constructor <;> (rintro rfl; exact absurd h (by decide))
        · exact mem_natChars_ne h
      · constructor <;> (rintro rfl; exact absurd h (by decide))
    · exact mem_natListChars_ne h
  · constructor <;> (rintro rfl; exact absurd h (by decide))

theorem nl_not_mem_serializeEntry (e : LogEntry) : '\n' ∉ serializeEntry e :=
  fun h => (mem_serializeEntry_ne h).1 rfl

theorem cr_not_mem_serializeEntry (e : LogEntry) : '\r' ∉ serializeEntry e :=
  fun h => (mem_serializeEntry_ne h).2 rfl

/-! ### Line splitting -/

theorem splitNl_ne_nil (cs : List Char) : splitNl cs ≠ [] := by
  cases cs with
  | nil => simp [splitNl]
  | cons c cs =>
    rw [splitNl]
    by_cases h : c = '\n'
    · simp [h]
    · simp only [if_neg h]
      split <;> simp

theorem splitNl_cons_nl (cs : List Char) : splitNl ('\n' :: cs) = [] :: splitNl cs := by
  rw [splitNl]; simp

theorem splitNl_cons_of_ne {c : Char} (h : c ≠ '\n') (cs : List Char) :
    splitNl (c :: cs) = (c :: (splitNl cs).headI) :: (splitNl cs).tail := by
  rw [splitNl]
  simp only [if_neg h]
  obtain ⟨s, ss, hss⟩ := List.exists_cons_of_ne_nil (splitNl_ne_nil cs)
  rw [hss]
  simp

theorem splitNl_append_single_nl (a : List Char) :
    ∃ q, splitNl (a ++ ['\n']) = q ++ [[]] ∧ q ≠ [] := by
  induction a with
  | nil => exact ⟨[[]], by decide, by decide⟩
  | cons c a ih =>
    obtain ⟨q, hq, hqne⟩ := ih
    by_cases h : c = '\n'
    · subst h
      rw [List.cons_append, splitNl_cons_nl, hq]
      exact ⟨[] :: q, by simp, by simp⟩
    · obtain ⟨q0, q1, hq0⟩ := List.exists_cons_of_ne_nil hqne
      refine ⟨(c :: q0) :: q1, ?_, by simp⟩
      rw [List.cons_append, splitNl_cons_of_ne h, hq, hq0]
      simp

theorem splitNl_append_nl (a : List Char) : ∀ b : List Char,
    splitNl ((a ++ ['\n']) ++ b) = (splitNl (a ++ ['\n'])).dropLast ++ splitNl b := by
  induction a with
  | nil =>
    intro b
    have h1 : (splitNl ['\n']).dropLast = [[]] := rfl
    rw [List.nil_append, h1, List.singleton_append, splitNl_cons_nl]
    rfl
  | cons c a ih =>
    intro b
    obtain ⟨q, hq, hqne⟩ := splitNl_append_single_nl a
    obtain ⟨q0, q1, hq0⟩ := List.exists_cons_of_ne_nil hqne
    obtain ⟨s, ss, hs⟩ := List.exists_cons_of_ne_nil (splitNl_ne_nil b)
    by_cases h : c = '\n'
    · subst h
      rw [List.cons_append, List.cons_append, splitNl_cons_nl, splitNl_cons_nl, ih b, hq,
        List.dropLast_concat]
      have h2 : ([] :: (q ++ [[]])).dropLast = [] :: q := by
        rw [show ([] :: (q ++ [[]]) : List (List Char)) = ([] :: q) ++ [[]] by simp,
          List.dropLast_concat]
      rw [h2]
      simp
    · rw [List.cons_append, List.cons_append, splitNl_cons_of_ne h, splitNl_cons_of_ne h,
        ih b, hq, hq0, List.dropLast_concat, hs]
      have h3 : ((c :: q0) :: (q1 ++ [[]])).dropLast = (c :: q0) :: q1 := by
        rw [show ((c :: q0) :: (q1 ++ [[]]) : List (List Char)) = ((c :: q0) :: q1) ++ [[]]
          by simp, List.dropLast_concat]
      simp only [List.cons_append, List.headI_cons, List.tail_cons, h3]

theorem splitNl_no_nl {a : List Char} (h : '\n' ∉ a) : splitNl (a ++ ['\n']) = [a, []] := by
  induction a with
  | nil => rfl
  | cons c a ih =>
    have hc : c ≠ '\n' := fun hc => h (hc ▸ List.mem_cons_self c a)
    have ha : '\n' ∉ a := fun ha => h (List.mem_cons_of_mem c ha)
    rw [List.cons_append, splitNl_cons_of_ne hc, ih ha]
    rfl

theorem linesOf_nil : linesOf [] = [] := rfl

theorem stripCR_eq_self {a : List Char} (h : '\r' ∉ a) : stripCR a = a := by
  rw [stripCR, if_neg]
  intro hc
  exact h (List.mem_of_mem_getLast? hc)

theorem linesOf_append (a b : List Char) :
    linesOf ((a ++ ['\n']) ++ b) = linesOf (a ++ ['\n']) ++ linesOf b := by
  obtain ⟨q, hq, hqne⟩ := splitNl_append_single_nl a
  have hsplit := splitNl_append_nl a b
  rw [hq, List.dropLast_concat] at hsplit
  obtain ⟨s, ss, hs⟩ := List.exists_cons_of_ne_nil (splitNl_ne_nil b)
  have hlast1 : (q ++ [[]]).getLast? = some ([] : List Char) := List.getLast?_concat q
  have hlast2 : (q ++ s :: ss).getLast? = (s :: ss).getLast? :=
    List.getLast?_append_of_ne_nil q (by simp)
  simp only [linesOf, hsplit, hq, hs]
  rw [if_pos hlast1, List.dropLast_concat]
  by_cases hend : (s :: ss).getLast? = some ([] : List Char)
  · rw [if_pos (hlast2.trans hend), if_pos hend,
      List.dropLast_append_of_ne_nil _ (by simp), List.map_append]
  · rw [if_neg (fun hcon => hend (hlast2.symm.trans hcon)), if_neg hend, List.map_append]

theorem linesOf_single {a : List Char} (hnl : '\n' ∉ a) (hcr : '\r' ∉ a) :
    linesOf (a ++ ['\n']) = [a] := by
  simp only [linesOf, splitNl_no_nl hnl]
  have hlast : ([a, []] : List (List Char)).getLast? = some [] := rfl
  rw [hlast, if_pos rfl]
  show [stripCR a] = [a]
  rw [stripCR_eq_self hcr]

theorem linesOf_chunk_append (e : LogEntry) (b : List Char) :
    linesOf (chunk e ++ b) = serializeEntry e :: linesOf b := by
  rw [chunk, linesOf_append,
    linesOf_single (nl_not_mem_serializeEntry e) (cr_not_mem_serializeEntry e)]
  rfl

theorem parsedEntries_nil : parsedEntries [] = [] := rfl

theorem parsedEntries_chunk_append (e : LogEntry) (b : List Char) :
    parsedEntries (chunk e ++ b) = e :: parsedEntries b := by
  rw [parsedEntries, linesOf_chunk_append]
  have hne : (serializeEntry e).isEmpty = false := by
    have := serializeEntry_ne_nil e
    cases hser : serializeEntry e with
    | nil => exact absurd hser this
    | cons x xs => rfl
  rw [List.filter_cons]
  simp only [hne, Bool.not_false, if_pos]
  rw [List.filterMap_cons, parseEntry_serializeEntry]
  rfl

theorem parsedEntries_encodeAll (es : List LogEntry) : parsedEntries (encodeAll es) = es := by
  induction es with
  | nil => rfl
  | cons e rest ih => rw [encodeAll, parsedEntries_chunk_append, ih]

theorem linesOf_encodeAll (es : List LogEntry) :
    linesOf (encodeAll es) = es.map serializeEntry := by
  induction es with
  | nil => rfl
  | cons e rest ih => rw [encodeAll, linesOf_chunk_append, ih, List.map_cons]

/-! ### Terminated content -/

theorem terminated_decomp {cs : List Char} (h : Terminated cs) :
    cs = [] ∨ ∃ a, cs = a ++ ['\n'] := by
  rcases h with h | h
  · exact Or.inl h
  · exact Or.inr ⟨cs.dropLast, (List.dropLast_append_getLast? '\n' h).symm⟩

theorem linesOf_append_of_terminated {a : List Char} (h : Terminated a) (b : List Char) :
    linesOf (a ++ b) = linesOf a ++ linesOf b := by
  rcases terminated_decomp h with rfl | ⟨a0, rfl⟩
  · rw [List.nil_append, linesOf_nil, List.nil_append]
  · exact linesOf_append a0 b

theorem parsedEntries_append_of_terminated {a : List Char} (h : Terminated a)
    (b : List Char) : parsedEntries (a ++ b) = parsedEntries a ++ parsedEntries b := by
  rw [parsedEntries, parsedEntries, parsedEntries, linesOf_append_of_terminated h,
    List.filter_append, List.filterMap_append]

theorem terminated_append_chunk (a : List Char) (e : LogEntry) :
    Terminated (a ++ chunk e) := by
  right
  rw [chunk, ← List.append_assoc]
  exact List.getLast?_concat _

theorem serializeEntry_isEmpty (e : LogEntry) : (serializeEntry e).isEmpty = false := by
  have h := serializeEntry_ne_nil e
  cases hser : serializeEntry e with
  | nil => exact absurd hser h
  | cons x xs => rfl

theorem linesOf_chunk (e : LogEntry) : linesOf (chunk e) = [serializeEntry e] := by
  have h := linesOf_chunk_append e []
  rw [List.append_nil] at h
  rw [h, linesOf_nil]

theorem parsedEntries_chunk (e : LogEntry) : parsedEntries (chunk e) = [e] := by
  have h := parsedEntries_chunk_append e []
  rw [List.append_nil] at h
  rw [h, parsedEntries_nil]

/-! ### Iterated appends -/

theorem appendSeq_cons (s : WalState) (t : Nat) (d : List Nat)
    (rest : List (Nat × List Nat)) :
    appendSeq s ((t, d) :: rest) =
      ((appendSeq (append s t d).1 rest).1,
        (append s t d).2 :: (appendSeq (append s t d).1 rest).2) := rfl

theorem appendSeq_spec (l : List (Nat × List Nat)) : ∀ s : WalState,
    (appendSeq s l).1.current_id = s.current_id + l.length ∧
    ((appendSeq s l).2).map (fun e => e.id) = List.range' s.current_id l.length ∧
    (appendSeq s l).1.content = s.content ++ encodeAll ((appendSeq s l).2) := by
  induction l with
  | nil =>
    intro s
    refine ⟨rfl, rfl, ?_⟩
    show s.content = s.content ++ encodeAll []
    rw [encodeAll, List.append_nil]
  | cons td rest ih =>
    intro s
    obtain ⟨t, d⟩ := td
    obtain ⟨ih1, ih2, ih3⟩ := ih (append s t d).1
    rw [appendSeq_cons]
    refine ⟨?_, ?_, ?_⟩
    · show (appendSeq (append s t d).1 rest).1.current_id = _
      rw [ih1]
      show s.current_id + 1 + rest.length = s.current_id + (rest.length + 1)
      omega
    · rw [List.map_cons, ih2]
      show s.current_id :: List.range' (s.current_id + 1) rest.length =
        List.range' s.current_id (rest.length + 1)
      rw [List.range'_succ]
    · show (appendSeq (append s t d).1 rest).1.content = _
      rw [ih3]
      show (s.content ++ chunk _) ++ encodeAll _ = s.content ++ encodeAll (_ :: _)
      rw [encodeAll, List.append_assoc]
      rfl

theorem getLast?_cons_ne {α : Type} (a : α) {l : List α} (h : l ≠ []) :
    (a :: l).getLast? = l.getLast? := by
  rw [← List.singleton_append]
  exact List.getLast?_append_of_ne_nil _ h

theorem range'_getLast?_eq : ∀ n : Nat, n ≠ 0 → ∀ a : Nat,
    (List.range' a n).getLast? = some (a + n - 1) := by
  intro n
  induction n with
  | zero => intro h; exact absurd rfl h
  | succ m ih =>
    intro _ a
    rw [List.range'_succ]
    cases m with
    | zero => rfl
    | succ m2 =>
      rw [getLast?_cons_ne _ (by simp [List.range'_eq_nil]), ih (by omega)]
      congr 1
      omega

theorem maxId_getLast : ∀ es : List LogEntry,
    (es.map (fun e => e.id)).Pairwise (· ≤ ·) →
    ∀ e, es.getLast? = some e → maxId es = e.id := by
  intro es
  induction es with
  | nil => intro _ e h; simp at h
  | cons a es ih =>
    intro hs e hlast
    by_cases hes : es = []
    · subst hes
      have h1 : ([a] : List LogEntry).getLast? = some a := rfl
      rw [h1] at hlast
      have hae : a = e := Option.some.inj hlast
      rw [← hae]
      show Nat.max a.id 0 = a.id
      exact Nat.max_eq_left (Nat.zero_le _)
    · rw [getLast?_cons_ne a hes] at hlast
      rw [List.map_cons, List.pairwise_cons] at hs
      have hIH := ih hs.2 e hlast
      have hmem : e ∈ es := List.mem_of_mem_getLast? hlast
      have hle : a.id ≤ e.id := hs.1 e.id (List.mem_map_of_mem _ hmem)
      show Nat.max a.id (maxId es) = e.id
      rw [hIH]
      exact Nat.max_eq_right hle

theorem length_filter_bne (k : Nat) : ∀ l : List LogEntry,
    (l.filter (fun e => e.id != k)).length + l.countP (fun e => e.id == k) = l.length := by
  intro l
  induction l with
  | nil => rfl
  | cons a l ih =>
    by_cases h : a.id = k <;>
      simp [List.filter_cons, List.countP_cons, h] <;> omega

/-! ### The claims -/

/-- C1 (corrected) counterexample: an existing storage file holding parseable
records with ids `5` then `3` (out of order).  `get_new_id` returns the id of
the LAST parseable record plus one, here `4`, while `max(existing ids) + 1`
is `6` — so opening does not recover `next_id` to `max(existing ids) + 1` on
every existing storage file. -/
theorem c1_counterexample :
    get_new_id (encodeAll [{ id := 5, timestamp := 0, data := [] },
        { id := 3, timestamp := 0, data := [] }]) = 4 ∧
    maxId (parsedEntries (encodeAll [{ id := 5, timestamp := 0, data := [] },
        { id := 3, timestamp := 0, data := [] }])) + 1 = 6 ∧
    get_new_id (encodeAll [{ id := 5, timestamp := 0, data := [] },
        { id := 3, timestamp := 0, data := [] }]) ≠
      maxId (parsedEntries (encodeAll [{ id := 5, timestamp := 0, data := [] },
        { id := 3, timestamp := 0, data := [] }])) + 1 := by
  refine ⟨by decide, by decide, by decide⟩

/-- C1 (amended): opening recovers `next_id` to (id of the last parseable
record) + 1, and to `0` when storage is empty or holds no parseable record;
whenever the stored ids are nondecreasing — as in any storage the store itself
produced — this equals `max(existing ids) + 1`; and reopening a store after
appending ids `0..k` resumes id assignment at `k + 1`. -/
theorem c1_next_id_recovery :
    get_new_id [] = 0 ∧
    (∀ content : List Char, parsedEntries content = [] → get_new_id content = 0) ∧
    (∀ (content : List Char) (e : LogEntry),
      (parsedEntries content).getLast? = some e → get_new_id content = e.id + 1) ∧
    (∀ content : List Char,
      ((parsedEntries content).map (fun e => e.id)).Pairwise (· ≤ ·) →
      parsedEntries content ≠ [] →
      get_new_id content = maxId (parsedEntries content) + 1) ∧
    (∀ l : List (Nat × List Nat),
      (openWal ((appendSeq (openWal []) l).1).content).current_id = l.length) := by
  refine ⟨rfl, ?_, ?_, ?_, ?_⟩
  · intro c h
    rw [get_new_id, h]
    rfl
  · intro c e h
    rw [get_new_id, h]
  · intro c hs hne
    cases hgl : (parsedEntries c).getLast? with
    | none => exact absurd (List.getLast?_eq_none_iff.mp hgl) hne
    | some e =>
      rw [get_new_id, hgl, maxId_getLast _ hs e hgl]
  · intro l
    obtain ⟨h1, h2, h3⟩ := appendSeq_spec l (openWal [])
    have hcur : (openWal ([] : List Char)).current_id = 0 := rfl
    have hcont : (openWal ([] : List Char)).content = [] := rfl
    rw [hcur] at h2
    show get_new_id ((appendSeq (openWal []) l).1.content) = l.length
    rw [h3, hcont, List.nil_append, get_new_id, parsedEntries_encodeAll]
    cases hl : l.length with
    | zero =>
      have hr : List.range' 0 l.length = [] := by rw [hl]; rfl
      have hes : (appendSeq (openWal []) l).2 = [] :=
        List.map_eq_nil_iff.mp (by rw [h2, hr])
      rw [hes]
      rfl
    | succ m =>
      have hr : (List.range' 0 (m + 1)).getLast? = some m := by
        rw [range'_getLast?_eq (m + 1) (by omega) 0]
        congr 1
        omega
      have hmap := List.getLast?_map (fun e => e.id) (appendSeq (openWal []) l).2
      rw [h2, hl, hr] at hmap
      cases hgl : (appendSeq (openWal []) l).2.getLast? with
      | none => rw [hgl] at hmap; simp at hmap
      | some e =>
        rw [hgl] at hmap
        simp only [Option.map_some'] at hmap
        have hm : e.id = m := (Option.some.inj hmap).symm
        show e.id + 1 = m + 1
        omega

/-- Witness for the C1 theorem: an in-order file recovers to last id + 1 which
equals max + 1, and a file with no parseable record recovers to 0. -/
theorem c1_next_id_recovery_witness :
    get_new_id (encodeAll [{ id := 0, timestamp := 0, data := [] },
        { id := 4, timestamp := 0, data := [] }]) = 5 ∧
    get_new_id (encodeAll [{ id := 0, timestamp := 0, data := [] },
        { id := 4, timestamp := 0, data := [] }]) =
      maxId (parsedEntries (encodeAll [{ id := 0, timestamp := 0, data := [] },
        { id := 4, timestamp := 0, data := [] }])) + 1 ∧
    get_new_id ['j'] = 0 := by
  have h := c1_next_id_recovery
  refine ⟨?_, ?_, ?_⟩
  · exact h.2.2.1 _ { id := 4, timestamp := 0, data := [] } (by decide)
  · exact h.2.2.2.1 _ (by decide) (by decide)
  · exact h.2.1 ['j'] (by decide)

/-- C2: a fresh store on empty storage assigns ids `0, 1, …, N-1` to `N`
appends in call order; each append increments `current_id` by exactly one,
and `current_id` never decreases across append, clear, clear_id or read_all. -/
theorem c2_append_id_assignment (l : List (Nat × List Nat)) (s : WalState)
    (ts k : Nat) (d : List Nat) :
    ((appendSeq (openWal []) l).2).map (fun e => e.id) = List.range l.length ∧
    (append s ts d).1.current_id = s.current_id + 1 ∧
    s.current_id ≤ (append s ts d).1.current_id ∧
    s.current_id ≤ (clear s).current_id ∧
    s.current_id ≤ (clear_id s k).current_id ∧
    s.current_id ≤ (read_all s).1.current_id := by
  refine ⟨?_, rfl, ?_, le_refl _, le_refl _, le_refl _⟩
  · have h2 := (appendSeq_spec l (openWal [])).2.1
    have hcur : (openWal ([] : List Char)).current_id = 0 := rfl
    rw [hcur] at h2
    rw [h2, List.range_eq_range']
  · show s.current_id ≤ s.current_id + 1
    omega

/-- C3 (corrected) counterexample: open a store on an existing file whose
content is the single character `x` with no trailing delimiter (a reachable
state: `WriteAheadLog::new` on such a file).  The appended record is glued to
the unterminated segment, the merged line fails to parse, and `read_all`
right after a successful append returns no record at all — in particular no
last record carrying the appended payload. -/
theorem c3_counterexample :
    (read_all (append (openWal ['x']) 0 []).1).2 = [] ∧
    ((read_all (append (openWal ['x']) 0 []).1).2).getLast? ≠
      some (append (openWal ['x']) 0 []).2 := by
  refine ⟨by decide, by decide⟩

/-- C3 (amended): on every store whose content ends at a record boundary
(empty, or ending with the newline delimiter — true of every state the store
itself writes), a successful append of payload `P` immediately followed by
`read_all` yields a sequence whose last record is exactly the record append
returned, carrying payload `P` and the id `append` assigned. -/
theorem c3_append_read_roundtrip (s : WalState) (ts : Nat) (d : List Nat)
    (h : Terminated s.content) :
    ((read_all (append s ts d).1).2).getLast? = some (append s ts d).2 ∧
    (append s ts d).2.data = d ∧
    (append s ts d).2.id = s.current_id := by
  refine ⟨?_, rfl, rfl⟩
  show (parsedEntries (s.content ++ chunk _)).getLast? = _
  rw [parsedEntries_append_of_terminated h, parsedEntries_chunk]
  exact List.getLast?_concat _

/-- Witness for the C3 theorem on the empty store. -/
theorem c3_append_read_roundtrip_witness :
    ((read_all (append (openWal []) 0 [1, 2]).1).2).getLast? =
      some (append (openWal []) 0 [1, 2]).2 ∧
    (append (openWal []) 0 [1, 2]).2.data = [1, 2] ∧
    (append (openWal []) 0 [1, 2]).2.id = (openWal ([] : List Char)).current_id :=
  c3_append_read_roundtrip (openWal []) 0 [1, 2] (Or.inl rfl)

/-- C4: scanning storage that holds a well-formed record, then an arbitrary
corrupted or empty segment (no delimiter or carriage return inside, not
parseable), then a well-formed record returns exactly the two well-formed
records in storage order, with no error: bad segments are skipped silently. -/
theorem c4_lenient_scan (e1 e2 : LogEntry) (junk : List Char) (i : Nat)
    (hnl : '\n' ∉ junk) (hcr : '\r' ∉ junk) (hbad : parseEntry junk = none) :
    (read_all ⟨chunk e1 ++ ((junk ++ ['\n']) ++ chunk e2), i⟩).2 = [e1, e2] := by
  show parsedEntries (chunk e1 ++ ((junk ++ ['\n']) ++ chunk e2)) = [e1, e2]
  rw [parsedEntries, linesOf_chunk_append, linesOf_append, linesOf_single hnl hcr,
    linesOf_chunk]
  by_cases hj : junk.isEmpty <;>
    simp [List.filter_cons, List.filterMap_cons, hj, hbad, parseEntry_serializeEntry,
      serializeEntry_isEmpty]

/-- Witness for the C4 theorem: records 0 and 1 around the junk line
`garbage`. -/
theorem c4_lenient_scan_witness :
    (read_all ⟨chunk { id := 0, timestamp := 0, data := [] } ++
        ((['g', 'a', 'r', 'b', 'a', 'g', 'e'] ++ ['\n']) ++
          chunk { id := 1, timestamp := 0, data := [2] }), 2⟩).2 =
      [{ id := 0, timestamp := 0, data := [] },
        { id := 1, timestamp := 0, data := [2] }] :=
  c4_lenient_scan _ _ _ 2 (by decide) (by decide) (by decide)

/-- C5 (corrected) counterexample: a store whose file holds two parseable
records that both carry id `7`.  `clear_id 7` removes both of them, not
exactly one, so "deleting exactly one record when k is present" fails on this
store state. -/
theorem c5_counterexample :
    ((read_all { content := encodeAll [{ id := 7, timestamp := 0, data := [] },
        { id := 7, timestamp := 1, data := [] }], current_id := 8 }).2).length = 2 ∧
    (read_all (clear_id { content := encodeAll [{ id := 7, timestamp := 0, data := [] },
        { id := 7, timestamp := 1, data := [] }], current_id := 8 } 7)).2 = [] := by
  refine ⟨by decide, by decide⟩

/-- C5 (amended): after `remove k` the records observable via `read_all` are
exactly the original ones whose id differs from `k`, in unchanged relative
order; when no record has id `k` the observable content is unchanged (the
operation is a no-op, not an error); and when exactly one record has id `k`
(as in any store whose ids are unique, which holds for all stores produced
solely through the API) exactly one record is deleted. -/
theorem c5_remove_semantics (s : WalState) (k : Nat) :
    (read_all (clear_id s k)).2 = ((read_all s).2).filter (fun e => e.id != k) ∧
    ((∀ e ∈ (read_all s).2, e.id ≠ k) → (read_all (clear_id s k)).2 = (read_all s).2) ∧
    (((read_all s).2).countP (fun e => e.id == k) = 1 →
      ((read_all (clear_id s k)).2).length + 1 = ((read_all s).2).length) := by
  have h1 : (read_all (clear_id s k)).2 = ((read_all s).2).filter (fun e => e.id != k) := by
    show parsedEntries (encodeAll ((parsedEntries s.content).filter (fun e => e.id != k))) = _
    rw [parsedEntries_encodeAll]
    rfl
  refine ⟨h1, ?_, ?_⟩
  · intro hall
    rw [h1]
    apply List.filter_eq_self.mpr
    intro e he
    exact bne_iff_ne.mpr (hall e he)
  · intro hcount
    rw [h1]
    have h2 := length_filter_bne k (read_all s).2
    omega

/-- Witness for the C5 theorem: removing id 0 from a two-record store leaves
record 1; removing the absent id 5 changes nothing. -/
theorem c5_remove_semantics_witness :
    (read_all (clear_id { content := encodeAll [{ id := 0, timestamp := 0, data := [] },
        { id := 1, timestamp := 0, data := [2] }], current_id := 2 } 5)).2 =
      (read_all ({ content := encodeAll [{ id := 0, timestamp := 0, data := [] },
        { id := 1, timestamp := 0, data := [2] }], current_id := 2 } : WalState)).2 ∧
    ((read_all (clear_id { content := encodeAll [{ id := 0, timestamp := 0, data := [] },
        { id := 1, timestamp := 0, data := [2] }], current_id := 2 } 0)).2).length + 1 =
      ((read_all ({ content := encodeAll [{ id := 0, timestamp := 0, data := [] },
        { id := 1, timestamp := 0, data := [2] }], current_id := 2 } : WalState)).2).length := by
  have h5 := c5_remove_semantics
    { content := encodeAll [{ id := 0, timestamp := 0, data := [] },
        { id := 1, timestamp := 0, data := [2] }], current_id := 2 } 5
  have h0 := c5_remove_semantics
    { content := encodeAll [{ id := 0, timestamp := 0, data := [] },
        { id := 1, timestamp := 0, data := [2] }], current_id := 2 } 0
  exact ⟨h5.2.1 (by decide), h0.2.2 (by decide)⟩

/-- C6: every append writes the serialized record followed by the delimiter at
the very end of storage — previously written bytes are untouched, storage
length strictly grows — and iterating appends lays the records down in call
order. -/
theorem c6_append_frame (s : WalState) (ts : Nat) (d : List Nat)
    (l : List (Nat × List Nat)) :
    (append s ts d).1.content =
      s.content ++ (serializeEntry (append s ts d).2 ++ ['\n']) ∧
    ((append s ts d).1.content).take s.content.length = s.content ∧
    s.content.length < ((append s ts d).1.content).length ∧
    (appendSeq s l).1.content = s.content ++ encodeAll ((appendSeq s l).2) := by
  refine ⟨rfl, ?_, ?_, (appendSeq_spec l s).2.2⟩
  · show (s.content ++ chunk _).take s.content.length = s.content
    exact List.take_left _ _
  · show s.content.length < (s.content ++ chunk _).length
    rw [List.length_append, chunk, List.length_append]
    simp

/-- C7: read_all is a non-destructive snapshot — it returns the state with the
counter and the stored bytes unchanged. -/
theorem c7_read_all_nondestructive (s : WalState) :
    (read_all s).1 = s ∧ (read_all s).1.content = s.content ∧
    (read_all s).1.current_id = s.current_id :=
  ⟨rfl, rfl, rfl⟩

/-- C8: clear truncates storage so that read_all returns the empty sequence,
does not reset the counter, and a subsequent append succeeds, is observable
via read_all, and continues id assignment from the pre-clear counter. -/
theorem c8_clear_semantics (s : WalState) (ts : Nat) (d : List Nat) :
    (clear s).content = [] ∧
    (read_all (clear s)).2 = [] ∧
    (clear s).current_id = s.current_id ∧
    (read_all (append (clear s) ts d).1).2 = [(append (clear s) ts d).2] ∧
    (append (clear s) ts d).2.id = s.current_id := by
  refine ⟨rfl, rfl, rfl, ?_, rfl⟩
  show parsedEntries ([] ++ chunk _) = _
  rw [List.nil_append, parsedEntries_chunk]
  rfl

/-- C9: when serialization fails during append, the error propagates
immediately and nothing is written — the stored bytes and the counter are
exactly as before the call. -/
theorem c9_serialization_error_no_write {ε : Type}
    (ser : LogEntry → Except ε (List Char)) (s : WalState) (ts : Nat)
    (d : List Nat) (err : ε) (h : (appendGen ser s ts d).2 = Except.error err) :
    (appendGen ser s ts d).1 = s ∧
    (appendGen ser s ts d).1.content = s.content ∧
    (appendGen ser s ts d).1.current_id = s.current_id := by
  have h1 : (appendGen ser s ts d).1 = s := by
    simp only [appendGen] at h ⊢
    cases hs : ser { id := s.current_id, timestamp := ts, data := d } with
    | error e2 => rfl
    | ok bytes =>
      rw [hs] at h
      simp at h
  exact ⟨h1, by rw [h1], by rw [h1]⟩

/-- Witness for the C9 theorem with an always-failing serializer. -/
theorem c9_serialization_error_no_write_witness :
    (appendGen (fun _ : LogEntry => (Except.error () : Except Unit (List Char)))
      { content := ['a'], current_id := 3 } 0 [1]).1 =
      { content := ['a'], current_id := 3 } :=
  (c9_serialization_error_no_write
    (fun _ : LogEntry => (Except.error () : Except Unit (List Char)))
    { content := ['a'], current_id := 3 } 0 [1] () rfl).1

/-- C10: clear_id rewrites the file from exactly the re-serialized parseable
entries whose id differs from `k` — every stored entry with id `k` is gone
(all of them, if duplicates exist), and every malformed or empty line is
permanently dropped, even when no entry has id `k`: afterwards every line of
storage parses. -/
theorem c10_clear_id_rewrite (s : WalState) (k : Nat) :
    (clear_id s k).content =
      encodeAll ((parsedEntries s.content).filter (fun e => e.id != k)) ∧
    linesOf ((clear_id s k).content) =
      ((parsedEntries s.content).filter (fun e => e.id != k)).map serializeEntry ∧
    (∀ e ∈ parsedEntries ((clear_id s k).content), e.id ≠ k) ∧
    (∀ line ∈ linesOf ((clear_id s k).content), parseEntry line ≠ none) := by
  refine ⟨rfl, linesOf_encodeAll _, ?_, ?_⟩
  · intro e he
    have he2 : e ∈ (parsedEntries s.content).filter (fun e => e.id != k) := by
      rw [show parsedEntries ((clear_id s k).content) =
        (parsedEntries s.content).filter (fun e => e.id != k)
        from parsedEntries_encodeAll _] at he
      exact he
    have hp := List.of_mem_filter he2
    exact bne_iff_ne.mp hp
  · intro line hline
    rw [show linesOf ((clear_id s k).content) =
      ((parsedEntries s.content).filter (fun e => e.id != k)).map serializeEntry
      from linesOf_encodeAll _] at hline
    obtain ⟨e, _, rfl⟩ := List.mem_map.mp hline
    rw [parseEntry_serializeEntry]
    simp

/-- Witness for the C10 theorem: after removing id 7 from a store holding a
junk line and records 7 and 2, the surviving record 2 has id different from 7
and its stored line parses. -/
theorem c10_clear_id_rewrite_witness :
    ({ id := 2, timestamp := 0, data := [1] } : LogEntry).id ≠ 7 ∧
    parseEntry (serializeEntry ({ id := 2, timestamp := 0, data := [1] } : LogEntry)) ≠
      none := by
  have h := c10_clear_id_rewrite
    { content := 'j' :: '\n' :: (chunk { id := 7, timestamp := 0, data := [] } ++
        chunk { id := 2, timestamp := 0, data := [1] }), current_id := 8 } 7
  exact ⟨h.2.2.1 _ (by decide), h.2.2.2 _ (by decide)⟩

end Waly
